import Mathlib

/-!
Verification of the Antlers language-server extension contract.

The development shallowly embeds the data model and operations of the
repository: the symbol/position model, the reportable-error conversion,
the suggestion-request parameter range, the addon-load interop routine,
and — modelled from the specification where the repository ships only
interface declarations — the scope store, modifier-chain resolution,
symbol pairing, and the completion/hover dispatch pipeline.
-/

namespace AntlersLS

/-- An LSP text position: zero-based line and character. -/
structure Position where
  line : Nat
  character : Nat
deriving DecidableEq, Repr

/-- An LSP range between two positions. -/
structure Range where
  start : Position
  «end» : Position
deriving DecidableEq, Repr

/-- Diagnostic severities are numeric codes in the LSP protocol. -/
abbrev DiagnosticSeverity := Nat

/-- The symbol model (`ISymbol`): the fields of the interface used by the
verified claims.  Following the back-reference design note, `belongsTo` and
`isClosedBy` are indices into the arena (the produced symbol list) rather
than owning references.  Fields of `ISymbol` not needed by any claim
(parameter caches, runtime types, scope references) are omitted. -/
structure ISymbol where
  id : String
  name : String
  isClosingTag : Bool
  startLine : Nat
  endLine : Nat
  startOffset : Nat
  endOffset : Nat
  belongsTo : Option Nat
  isClosedBy : Option Nat
deriving DecidableEq, Repr

/-- `IReportableError`: an error location plus a user-facing message. -/
structure IReportableError where
  startLine : Nat
  endLine : Nat
  startPos : Nat
  endPos : Nat
  severity : DiagnosticSeverity
  message : String
deriving DecidableEq, Repr

/-- Direct translation of `symbolToReportableError` from the source: note the
source assigns `symbol.startLine` to the `endLine` field. -/
def symbolToReportableError (message : String) (severity : DiagnosticSeverity)
    (symbol : ISymbol) : IReportableError :=
  { endLine := symbol.startLine
    endPos := symbol.endOffset
    message := message
    severity := severity
    startLine := symbol.startLine
    startPos := symbol.startOffset }

/-- The suggestion-request snapshot (`ISuggestionRequest`): the fields used by
the verified claims.  The `activeParameter` and `activeInterpolation`
attachments are omitted as no claim mentions them. -/
structure ISuggestionRequest where
  document : String
  isCaretInTag : Bool
  leftChar : String
  leftWord : String
  leftMeaningfulWord : Option String
  originalLeftWord : String
  rightChar : String
  rightWord : String
  position : Position
  currentSymbol : Option ISymbol
  symbolsInScope : List ISymbol
  isInDoubleBraces : Bool
  isInVariableInterpolation : Bool
  interpolationStartsOn : Option Nat
deriving Repr

/-- Direct translation of `getParameterRange` from the source: when the
request's `symbolsInScope` is non-empty, the range spans the last symbol in
scope; otherwise the result is `null`. -/
def getParameterRange (params : ISuggestionRequest) : Option Range :=
  match params.symbolsInScope.getLast? with
  | some lastSymbolInScope =>
      some { start := { character := lastSymbolInScope.startOffset
                        line := lastSymbolInScope.startLine }
             «end» := { character := lastSymbolInScope.endOffset
                        line := lastSymbolInScope.endLine } }
  | none => none

/-- A host-side editor action observable from `sendLoadAddonRequest`:
activating the Antlers extension, or dispatching a named command with a
single string argument. -/
inductive HostAction where
  | activateExtension : HostAction
  | executeCommand : String → String → HostAction
deriving DecidableEq, Repr

/-- The state of the `stillat.vscode-antlers` extension as seen through the
`vscode.extensions.getExtension` API. -/
structure VSCodeExtension where
  isActive : Bool
deriving DecidableEq, Repr

/-- Direct translation of `sendLoadAddonRequest`: the host interaction is
reified as the ordered list of actions the function performs, with the
`getExtension` lookup supplied as an `Option`. -/
def sendLoadAddonRequest (antlersLanguageClient : Option VSCodeExtension)
    (extensionPath : String) : List HostAction :=
  match antlersLanguageClient with
  | some ext =>
      if ext.isActive = false then
        [HostAction.activateExtension,
         HostAction.executeCommand "vscodeAntlers.reloadAddons"
           (extensionPath ++ "/antlers/package.json")]
      else
        []
  | none =>
      [HostAction.executeCommand "vscodeAntlers.reloadAddons"
        (extensionPath ++ "/antlers/package.json")]

/-- Recognizes command-dispatch actions, for separating command dispatch from
extension activation in the observable action trace. -/
def HostAction.isCommandDispatch : HostAction → Bool
  | HostAction.executeCommand _ _ => true
  | _ => false

end AntlersLS

namespace AntlersLS

/-- `IBlueprintField`: externally supplied schema metadata for one field.
The nested `sets` collection is omitted: no verified claim inspects it. -/
structure IBlueprintField where
  blueprintName : String
  name : String
  displayName : Option String
  instructionText : Option String
  maxItems : Option Nat
  type : String
deriving DecidableEq, Repr

/-- `IScopeVariable`: a named binding.  The introducing symbol is recorded by
its `id` (back-references are modelled as identifiers, not owning
references); `none` marks built-in/global bindings. -/
structure IScopeVariable where
  name : String
  dataType : String
  sourceField : Option IBlueprintField
  sourceName : String
  introducedBy : Option String
deriving DecidableEq, Repr

/-- Modelled from the spec: the `Scope` store, whose implementation is not
part of the shipped interface file.  A scope holds an ordered variable list
(insertion order carries the last-wins shadow resolution), the named lists
(each a nested scope), the names of lists ever added in this scope (for
`hasListInHistory`), and an optional ancestor; a root scope's `ancestor()`
self-reference is modelled by an absent parent. -/
inductive Scope where
  | mk : List IScopeVariable → List (String × Scope) → List String →
      Option Scope → Scope
deriving Repr

/-- The variables held directly in a scope. -/
def Scope.vars : Scope → List IScopeVariable
  | .mk vs _ _ _ => vs

/-- The named lists held directly in a scope. -/
def Scope.lists : Scope → List (String × Scope)
  | .mk _ ls _ _ => ls

/-- The names of lists ever added directly to a scope. -/
def Scope.listHistory : Scope → List String
  | .mk _ _ h _ => h

/-- The parent reference of a scope, absent for roots. -/
def Scope.parent : Scope → Option Scope
  | .mk _ _ _ p => p

/-- Modelled from the spec: `ancestor()` returns the parent scope; root
scopes return a self-reference. -/
def Scope.ancestor (s : Scope) : Scope := s.parent.getD s

/-- Modelled from the spec: local name lookup with last-wins shadow
resolution over the insertion-ordered variable list. -/
def Scope.lookupLocal (n : String) (s : Scope) : Option IScopeVariable :=
  s.vars.reverse.find? (fun v => v.name == n)

/-- Modelled from the spec: `findReference` resolves a name in the nearest
scope that binds it, walking the ancestor chain on a local miss and
returning `null` when every scope misses. -/
def Scope.findReference : String → Scope → Option IScopeVariable
  | n, .mk vs _ _ (some par) =>
    (vs.reverse.find? (fun v => v.name == n)).or (Scope.findReference n par)
  | n, .mk vs _ _ none => vs.reverse.find? (fun v => v.name == n)

/-- Modelled from the spec: `containsReference` reports whether
`findReference` would succeed. -/
def Scope.containsReference (n : String) (s : Scope) : Bool :=
  (s.findReference n).isSome

/-- Modelled from the spec: `hasValue` reports whether a binding with the
given name is reachable. -/
def Scope.hasValue (n : String) (s : Scope) : Bool :=
  (s.findReference n).isSome

/-- Modelled from the spec: locate the nearest list with the given name in
the ancestor chain. -/
def Scope.findListInChain : String → Scope → Option Scope
  | n, .mk _ ls _ (some par) =>
    ((ls.find? (fun e => e.1 == n)).map (fun e => e.2)).or
      (Scope.findListInChain n par)
  | n, .mk _ ls _ none => (ls.find? (fun e => e.1 == n)).map (fun e => e.2)

/-- Modelled from the spec: `hasList` reports whether a list with the given
name exists in the ancestor chain. -/
def Scope.hasList (n : String) (s : Scope) : Bool :=
  (s.findListInChain n).isSome

/-- Modelled from the spec: `hasListInHistory` additionally counts lists
that were ever added in some scope of the chain, even if since removed. -/
def Scope.hasListInHistory : String → Scope → Bool
  | n, .mk _ ls h (some par) =>
    h.contains n || (ls.find? (fun e => e.1 == n)).isSome ||
      Scope.hasListInHistory n par
  | n, .mk _ ls h none =>
    h.contains n || (ls.find? (fun e => e.1 == n)).isSome

/-- Splits a character stream at `.` separators, accumulating the current
segment in reverse. -/
def splitPathAux : List Char → List Char → List String
  | [], acc => [String.mk acc.reverse]
  | c :: cs, acc =>
    if c = '.' then String.mk acc.reverse :: splitPathAux cs []
    else splitPathAux cs (c :: acc)

/-- Splits a dotted path such as `article.author.name` into its segments. -/
def splitPath (s : String) : List String := splitPathAux s.data []

/-- Modelled from the spec: resolve a dotted path to a nested scope, walking
list scopes segment by segment. -/
def Scope.findNestedScopeSegs : List String → Scope → Option Scope
  | [], _ => none
  | [n], s => s.findListInChain n
  | n :: rest, s =>
    match s.findListInChain n with
    | some inner => Scope.findNestedScopeSegs rest inner
    | none => none

/-- Modelled from the spec: `findNestedScope` resolves a possibly dotted
path to a nested list scope, returning `null` when any segment is absent. -/
def Scope.findNestedScope (path : String) (s : Scope) : Option Scope :=
  Scope.findNestedScopeSegs (splitPath path) s

/-- Modelled from the spec: dotted-path membership, resolving the leading
segments through nested list scopes and the final segment as either a
binding or a list. -/
def Scope.containsPathSegs : List String → Scope → Bool
  | [], _ => false
  | [n], s => (s.findReference n).isSome || (s.findListInChain n).isSome
  | n :: rest, s =>
    match s.findListInChain n with
    | some inner => Scope.containsPathSegs rest inner
    | none => false

/-- Modelled from the spec: `containsPath` tests a possibly dotted path,
returning `false` rather than failing when any segment is absent. -/
def Scope.containsPath (path : String) (s : Scope) : Bool :=
  Scope.containsPathSegs (splitPath path) s

/-- Modelled from the spec: `addVariable` appends the binding, so the newest
binding for a name wins lookup. -/
def Scope.addVariable (v : IScopeVariable) : Scope → Scope
  | .mk vs ls h p => .mk (vs ++ [v]) ls h p

/-- Modelled from the spec: `addScopeList` registers a named list (newest
registration shadowing older ones of the same name) and records the name in
the scope's list history. -/
def Scope.addScopeList (listName : String) (inner : Scope) : Scope → Scope
  | .mk vs ls h p => .mk vs ((listName, inner) :: ls) (h ++ [listName]) p

/-- Modelled from the spec: `liftList` promotes the member fields of the
nearest list with the given name to top-level bindings of a new scope, and
returns `null` when no such list exists anywhere in the chain. -/
def Scope.liftList (n : String) (s : Scope) : Option Scope :=
  (s.findListInChain n).map
    (fun inner => .mk (s.vars ++ inner.vars) s.lists s.listHistory s.parent)

/-- Modelled from the spec: `removeThroughIntroduction` deletes exactly the
bindings of the given name introduced by the given symbol, in every scope of
the chain, leaving all other bindings in place. -/
def Scope.removeThroughIntroduction : String → String → Scope → Scope
  | n, symId, .mk vs ls h (some par) =>
    .mk (vs.filter (fun v => !(v.name == n && v.introducedBy == some symId)))
      ls h (some (Scope.removeThroughIntroduction n symId par))
  | n, symId, .mk vs ls h none =>
    .mk (vs.filter (fun v => !(v.name == n && v.introducedBy == some symId)))
      ls h none

/-- Modelled from the spec: `wasIntroducedBySymbol` checks whether the
binding that lookup resolves was introduced by the given symbol. -/
def Scope.wasIntroducedBySymbol (n : String) (symId : String)
    (s : Scope) : Bool :=
  match s.findReference n with
  | some v => v.introducedBy == some symId
  | none => false

/-- Modelled from the spec: `findReferenceNotIntroducedBy` resolves the
newest reachable binding of the name that was not introduced by the given
symbol, falling through to shadowed bindings. -/
def Scope.findReferenceNotIntroducedBy : String → String → Scope →
    Option IScopeVariable
  | n, symId, .mk vs _ _ (some par) =>
    (vs.reverse.find?
        (fun v => v.name == n && !(v.introducedBy == some symId))).or
      (Scope.findReferenceNotIntroducedBy n symId par)
  | n, symId, .mk vs _ _ none =>
    vs.reverse.find?
      (fun v => v.name == n && !(v.introducedBy == some symId))

/-- Modelled from the spec: `makeNew` produces a fresh, independent scope. -/
def Scope.makeNew (_ : Scope) : Scope := .mk [] [] [] none

/-- Modelled from the spec: `copy` produces an independent value-semantics
copy of the scope. -/
def Scope.copy (s : Scope) : Scope := s

/-- All bindings reachable along the ancestor chain, nearest scope first. -/
def Scope.chainVars : Scope → List IScopeVariable
  | .mk vs _ _ (some par) => vs ++ Scope.chainVars par
  | .mk vs _ _ none => vs

/-- No binding with the given name exists anywhere in the chain. -/
def Scope.varAbsent : String → Scope → Bool
  | n, .mk vs _ _ (some par) =>
    vs.all (fun v => !(v.name == n)) && Scope.varAbsent n par
  | n, .mk vs _ _ none => vs.all (fun v => !(v.name == n))

/-- No list with the given name was ever recorded in any scope's history. -/
def Scope.historyAbsent : String → Scope → Bool
  | n, .mk _ _ h (some par) =>
    !(h.contains n) && Scope.historyAbsent n par
  | n, .mk _ _ h none => !(h.contains n)

/-- No list with the given name exists anywhere in the chain. -/
def Scope.listAbsent : String → Scope → Bool
  | n, .mk _ ls _ (some par) =>
    ls.all (fun e => !(e.1 == n)) && Scope.listAbsent n par
  | n, .mk _ ls _ none => ls.all (fun e => !(e.1 == n))

/-- `IModifierParameter`: a named, described modifier parameter. -/
structure IModifierParameter where
  name : String
  description : String
deriving DecidableEq, Repr

/-- `IModifier`: a registered modifier's declaration. -/
structure IModifier where
  name : String
  acceptsType : List String
  returnsType : List String
  description : String
  parameters : List IModifierParameter
  docLink : Option String
  canBeParameter : Bool
deriving DecidableEq, Repr

/-- `ISymbolModifier`: one link of a parsed modifier chain.  The `args`
attachment is omitted: no verified claim inspects it. -/
structure ISymbolModifier where
  content : String
  source : String
  name : String
  startOffset : Nat
  endOffset : Nat
  line : Nat
  hasRegisteredModifier : Bool
  modifier : Option IModifier
deriving DecidableEq, Repr

/-- `ISymbolModifierCollection`: the resolved modifier chain attached to one
value. -/
structure ISymbolModifierCollection where
  hasModifiers : Bool
  hasParamModifiers : Bool
  hasShorthandModifiers : Bool
  hasMixedStyles : Bool
  modifiers : List ISymbolModifier
  paramModifiers : List ISymbolModifier
  shorthandModifiers : List ISymbolModifier
  trailingModifier : Option ISymbolModifier
  manifestType : String
deriving DecidableEq, Repr

/-- Modelled from the spec: registry lookup for a modifier name; the last
registration for a name wins. -/
def resolveModifierReference (registry : List IModifier)
    (nm : String) : Option IModifier :=
  registry.reverse.find? (fun m => m.name == nm)

/-- Modelled from the spec: resolve one chain link against the registry; an
unknown name keeps the link with `hasRegisteredModifier = false` rather
than breaking the chain. -/
def resolveModifier (registry : List IModifier) (nm : String) :
    ISymbolModifier :=
  match resolveModifierReference registry nm with
  | some m =>
    { content := nm, source := "shorthand", name := nm, startOffset := 0
      endOffset := 0, line := 0, hasRegisteredModifier := true
      modifier := some m }
  | none =>
    { content := nm, source := "shorthand", name := nm, startOffset := 0
      endOffset := 0, line := 0, hasRegisteredModifier := false
      modifier := none }

/-- Modelled from the spec: the declared return type of a modifier — its
most specific declared return type, with `*` when none is declared. -/
def modifierReturnType (m : IModifier) : String := m.returnsType.headD "*"

/-- Modelled from the spec: one link's effect on the assumed type — a
registered link's declared return type becomes the assumed input type of
the next link; an unregistered link leaves the type unchanged. -/
def chainLinkType (t : String) (sm : ISymbolModifier) : String :=
  if sm.hasRegisteredModifier then
    match sm.modifier with
    | some m => modifierReturnType m
    | none => t
  else t

/-- Modelled from the spec: resolve a whole chain of modifier names in
order. -/
def resolveChain (registry : List IModifier) (names : List String) :
    List ISymbolModifier :=
  names.map (resolveModifier registry)

/-- Modelled from the spec: fold the chain strictly left-to-right over the
source type. -/
def manifestTypeOfChain (sourceType : String)
    (mods : List ISymbolModifier) : String :=
  mods.foldl chainLinkType sourceType

/-- Modelled from the spec: assemble the modifier collection for a value of
the given source type from an ordered chain of shorthand modifier names. -/
def makeModifierCollection (registry : List IModifier) (sourceType : String)
    (names : List String) : ISymbolModifierCollection :=
  let mods := resolveChain registry names
  { hasModifiers := !mods.isEmpty
    hasParamModifiers := false
    hasShorthandModifiers := !mods.isEmpty
    hasMixedStyles := false
    modifiers := mods
    paramModifiers := []
    shorthandModifiers := mods
    trailingModifier := mods.getLast?
    manifestType := manifestTypeOfChain sourceType mods }

/-- A hover result: the rendered hover contents. -/
structure Hover where
  contents : String
deriving DecidableEq, Repr

/-- A completion item: the label offered to the user. -/
structure CompletionItem where
  label : String
deriving DecidableEq, Repr

/-- `ICompletionResult`: a handler's items plus the exclusivity flag. -/
structure ICompletionResult where
  items : List CompletionItem
  isExclusiveResult : Bool
deriving DecidableEq, Repr

/-- Modelled from the spec: hover dispatch walks the ordered handler results
and returns the first non-null one, `null` when every handler declined. -/
def dispatchHover : List (Option Hover) → Option Hover
  | [] => none
  | some h :: _ => some h
  | none :: rest => dispatchHover rest

/-- Modelled from the spec: completion dispatch concatenates the items of
non-exclusive handler results in handler order and stops at the first
exclusive result, whose items are used while all later handlers in the
category are skipped. -/
def dispatchCompletion : List ICompletionResult → List CompletionItem
  | [] => []
  | r :: rest =>
    if r.isExclusiveResult then r.items
    else r.items ++ dispatchCompletion rest

/-- A raw parse token consumed by the symbol producer: the construct name,
whether it closes a construct, and its position metadata. -/
structure RawToken where
  name : String
  isClosing : Bool
  startLine : Nat
  endLine : Nat
  startOffset : Nat
  endOffset : Nat
deriving DecidableEq, Repr

/-- The state of the pairing pass: the pending-opener stack (newest first,
index and tag name) and the matched pairs resolved so far (opener index, closer
index; newest first). -/
structure PairState where
  stack : List (Nat × String)
  matched : List (Nat × Nat)
deriving DecidableEq, Repr

/-- Pops the nearest (topmost) pending opener with the given tag name,
returning its index and the remaining stack. -/
def popMatch : List (Nat × String) → String → Option (Nat × List (Nat × String))
  | [], _ => none
  | e :: rest, nm =>
    if e.2 = nm then some (e.1, rest)
    else (popMatch rest nm).map (fun r => (r.1, e :: r.2))

/-- Modelled from the spec: one pairing step — an opener is pushed onto the
pending stack; a closer pops the nearest unmatched opener with a matching
name and records the match, while an unmatched closer is left unpaired and
parsing continues. -/
def pairStep (st : PairState) (i : Nat) (t : RawToken) : PairState :=
  if t.isClosing then
    match popMatch st.stack t.name with
    | some (j, stack2) => { stack := stack2, matched := (j, i) :: st.matched }
    | none => st
  else
    { stack := (i, t.name) :: st.stack, matched := st.matched }

/-- Runs the pairing pass over the remaining tokens, starting at the given
document index. -/
def pairRun : List RawToken → Nat → PairState → PairState
  | [], _, st => st
  | t :: ts, i, st => pairRun ts (i + 1) (pairStep st i t)

/-- The opener/closer matches for a token sequence. -/
def pairTokens (tokens : List RawToken) : List (Nat × Nat) :=
  (pairRun tokens 0 { stack := [], matched := [] }).matched

/-- Builds the symbol record for the token at index `i`, resolving its pair
references against the match list: `belongsTo` is populated only on closing
symbols (the matched opener's index) and `isClosedBy` only on opening
symbols (the matched closer's index); unmatched constructs keep both
references `null`. -/
def mkSymbol (ms : List (Nat × Nat)) (i : Nat) (t : RawToken) : ISymbol :=
  { id := toString i
    name := t.name
    isClosingTag := t.isClosing
    startLine := t.startLine
    endLine := t.endLine
    startOffset := t.startOffset
    endOffset := t.endOffset
    belongsTo :=
      if t.isClosing then (ms.find? (fun p => p.2 == i)).map (fun p => p.1)
      else none
    isClosedBy :=
      if t.isClosing then none
      else (ms.find? (fun p => p.1 == i)).map (fun p => p.2) }

/-- Modelled from the spec: produce the symbol sequence for a token stream,
pairing each construct requiring a close with the nearest matching pending
opener and keeping unmatched constructs in the sequence unpaired. -/
def buildSymbols (tokens : List RawToken) : List ISymbol :=
  tokens.enum.map (fun e => mkSymbol (pairTokens tokens) e.1 e.2)

/-- Token index `i` holds an opening token. -/
def openerAt (tokens : List RawToken) (i : Nat) : Prop :=
  ∃ t, tokens[i]? = some t ∧ t.isClosing = false

/-- Token index `i` holds a closing token. -/
def closerAt (tokens : List RawToken) (i : Nat) : Prop :=
  ∃ t, tokens[i]? = some t ∧ t.isClosing = true

/-- The pairing-pass invariant after the first `n` tokens: stack entries are
distinct pending openers below `n`; matches pair an opener strictly before
its closer, closer indices and opener indices are each distinct, and no
stacked opener is already matched. -/
structure PairInv (tokens : List RawToken) (n : Nat) (st : PairState) :
    Prop where
  stack_lt : ∀ e ∈ st.stack, e.1 < n
  stack_opener : ∀ e ∈ st.stack,
    ∃ t, tokens[e.1]? = some t ∧ t.isClosing = false ∧ t.name = e.2
  stack_nodup : (st.stack.map Prod.fst).Nodup
  match_lt : ∀ p ∈ st.matched, p.1 < p.2 ∧ p.2 < n
  match_opener : ∀ p ∈ st.matched, openerAt tokens p.1
  match_closer : ∀ p ∈ st.matched, closerAt tokens p.2
  match_closers_nodup : (st.matched.map Prod.snd).Nodup
  match_openers_nodup : (st.matched.map Prod.fst).Nodup
  disj : ∀ e ∈ st.stack, ∀ p ∈ st.matched, e.1 ≠ p.1

/-- C1: the code sets the reportable error's `endLine` to the symbol's
`startLine`, so for a symbol spanning multiple lines the produced error's
`endLine` differs from the symbol's `endLine`; the message, severity,
start line and start/end offsets follow the symbol as the claim states. -/
theorem symbolToReportableError_endLine_is_startLine :
    let s : ISymbol :=
      { id := "sym0", name := "collection", isClosingTag := false
        startLine := 1, endLine := 2, startOffset := 4, endOffset := 9
        belongsTo := none, isClosedBy := none }
    (symbolToReportableError "unmatched tag" 1 s).endLine = 1 ∧
      (symbolToReportableError "unmatched tag" 1 s).endLine ≠ s.endLine ∧
      (symbolToReportableError "unmatched tag" 1 s).startLine = s.startLine ∧
      (symbolToReportableError "unmatched tag" 1 s).startPos = s.startOffset ∧
      (symbolToReportableError "unmatched tag" 1 s).endPos = s.endOffset ∧
      (symbolToReportableError "unmatched tag" 1 s).message = "unmatched tag" ∧
      (symbolToReportableError "unmatched tag" 1 s).severity = 1 := by
  refine ⟨rfl, by decide, rfl, rfl, rfl, rfl, rfl⟩

/-- C3: `getParameterRange` returns the range built from the last symbol in
scope when `symbolsInScope` is non-empty, and `null` when it is empty. -/
theorem getParameterRange_spec (params : ISuggestionRequest) :
    (params.symbolsInScope = [] → getParameterRange params = none) ∧
    (∀ L, params.symbolsInScope.getLast? = some L →
      getParameterRange params =
        some { start := { line := L.startLine, character := L.startOffset }
               «end» := { line := L.endLine, character := L.endOffset } }) := by
  constructor
  · intro h
    simp [getParameterRange, h]
  · intro L hL
    simp [getParameterRange, hL]

/-- Witness for C3 at a concrete request: a singleton `symbolsInScope` yields
the symbol's own range, and the emptied request yields `null`. -/
theorem getParameterRange_spec_witness :
    let sym : ISymbol :=
      { id := "s1", name := "partial", isClosingTag := false
        startLine := 3, endLine := 4, startOffset := 2, endOffset := 11
        belongsTo := none, isClosedBy := none }
    let req : ISuggestionRequest :=
      { document := "doc", isCaretInTag := true, leftChar := "", leftWord := ""
        leftMeaningfulWord := none, originalLeftWord := "", rightChar := ""
        rightWord := "", position := { line := 3, character := 5 }
        currentSymbol := none, symbolsInScope := [sym]
        isInDoubleBraces := true, isInVariableInterpolation := false
        interpolationStartsOn := none }
    getParameterRange req =
      some { start := { line := 3, character := 2 }
             «end» := { line := 4, character := 11 } } ∧
    getParameterRange { req with symbolsInScope := [] } = none := by
  intro sym req
  exact ⟨(getParameterRange_spec req).2 sym rfl,
         (getParameterRange_spec { req with symbolsInScope := [] }).1 rfl⟩

/-- C4: `sendLoadAddonRequest` dispatches the reload command with the single
argument `extensionPath + "/antlers/package.json"` when the extension is
absent, or after first activating the extension when it is present but
inactive; when the extension is present and active it performs no action. -/
theorem sendLoadAddonRequest_spec (ext : Option VSCodeExtension)
    (extensionPath : String) :
    (ext = none →
      sendLoadAddonRequest ext extensionPath =
        [HostAction.executeCommand "vscodeAntlers.reloadAddons"
          (extensionPath ++ "/antlers/package.json")]) ∧
    (∀ e, ext = some e → e.isActive = false →
      sendLoadAddonRequest ext extensionPath =
        [HostAction.activateExtension,
         HostAction.executeCommand "vscodeAntlers.reloadAddons"
           (extensionPath ++ "/antlers/package.json")]) ∧
    (∀ e, ext = some e → e.isActive = true →
      sendLoadAddonRequest ext extensionPath = []) := by
  refine ⟨fun h => ?_, fun e he hact => ?_, fun e he hact => ?_⟩
  · simp [sendLoadAddonRequest, h]
  · simp [sendLoadAddonRequest, he, hact]
  · simp [sendLoadAddonRequest, he, hact]

/-- Witness for C4 at concrete extension states: absent, inactive, and
active. -/
theorem sendLoadAddonRequest_spec_witness :
    sendLoadAddonRequest none "/ext" =
      [HostAction.executeCommand "vscodeAntlers.reloadAddons"
        "/ext/antlers/package.json"] ∧
    sendLoadAddonRequest (some { isActive := false }) "/ext" =
      [HostAction.activateExtension,
       HostAction.executeCommand "vscodeAntlers.reloadAddons"
         "/ext/antlers/package.json"] ∧
    sendLoadAddonRequest (some { isActive := true }) "/ext" = [] := by
  refine ⟨?_, ?_, ?_⟩
  · exact (sendLoadAddonRequest_spec none "/ext").1 rfl
  · exact (sendLoadAddonRequest_spec (some { isActive := false }) "/ext").2.1
      { isActive := false } rfl rfl
  · exact (sendLoadAddonRequest_spec (some { isActive := true }) "/ext").2.2
      { isActive := true } rfl rfl

/-- Appending a binding makes it the result of a subsequent lookup of its
name: the appended binding is found first in the reversed variable list. -/
theorem Scope.findReference_addVariable (s : Scope) (v : IScopeVariable)
    (N : String) (h : v.name = N) :
    (s.addVariable v).findReference N = some v := by
  cases s with
  | mk vs ls hist p =>
    subst h
    cases p with
    | some par => simp [Scope.addVariable, Scope.findReference]
    | none => simp [Scope.addVariable, Scope.findReference]

/-- A name absent from every scope of the chain resolves to `none`. -/
theorem Scope.findReference_eq_none_of_varAbsent (n : String) :
    ∀ s : Scope, Scope.varAbsent n s = true → Scope.findReference n s = none
  | .mk vs ls hist (some par), habs => by
    rw [Scope.varAbsent, Bool.and_eq_true] at habs
    have hloc : vs.reverse.find? (fun v => v.name == n) = none := by
      rw [List.find?_eq_none]
      intro x hx
      have hxv := List.all_eq_true.mp habs.1 x (List.mem_reverse.mp hx)
      simp only [Bool.not_eq_true'] at hxv
      simp [hxv]
    have hrec := Scope.findReference_eq_none_of_varAbsent n par habs.2
    simp [Scope.findReference, hloc, hrec]
  | .mk vs ls hist none, habs => by
    rw [Scope.varAbsent] at habs
    have hloc : vs.reverse.find? (fun v => v.name == n) = none := by
      rw [List.find?_eq_none]
      intro x hx
      have hxv := List.all_eq_true.mp habs x (List.mem_reverse.mp hx)
      simp only [Bool.not_eq_true'] at hxv
      simp [hxv]
    simp [Scope.findReference, hloc]

/-- A list name absent from every scope of the chain has no nearest list. -/
theorem Scope.findListInChain_eq_none_of_listAbsent (n : String) :
    ∀ s : Scope, Scope.listAbsent n s = true →
      Scope.findListInChain n s = none
  | .mk vs ls hist (some par), habs => by
    rw [Scope.listAbsent, Bool.and_eq_true] at habs
    have hloc : ls.find? (fun e => e.1 == n) = none := by
      rw [List.find?_eq_none]
      intro x hx
      have hxe := List.all_eq_true.mp habs.1 x hx
      simp only [Bool.not_eq_true'] at hxe
      simp [hxe]
    have hrec := Scope.findListInChain_eq_none_of_listAbsent n par habs.2
    simp [Scope.findListInChain, hloc, hrec]
  | .mk vs ls hist none, habs => by
    rw [Scope.listAbsent] at habs
    have hloc : ls.find? (fun e => e.1 == n) = none := by
      rw [List.find?_eq_none]
      intro x hx
      have hxe := List.all_eq_true.mp habs x hx
      simp only [Bool.not_eq_true'] at hxe
      simp [hxe]
    simp [Scope.findListInChain, hloc]

/-- A list name absent from every scope's lists and history is not in
history. -/
theorem Scope.hasListInHistory_eq_false (n : String) :
    ∀ s : Scope, Scope.listAbsent n s = true →
      Scope.historyAbsent n s = true → Scope.hasListInHistory n s = false
  | .mk vs ls hist (some par), hla, hha => by
    rw [Scope.listAbsent, Bool.and_eq_true] at hla
    rw [Scope.historyAbsent, Bool.and_eq_true] at hha
    have hloc : ls.find? (fun e => e.1 == n) = none := by
      rw [List.find?_eq_none]
      intro x hx
      have hxe := List.all_eq_true.mp hla.1 x hx
      simp only [Bool.not_eq_true'] at hxe
      simp [hxe]
    have hhist : n ∉ hist := by simpa using hha.1
    have hrec := Scope.hasListInHistory_eq_false n par hla.2 hha.2
    simp [Scope.hasListInHistory, hloc, hhist, hrec]
  | .mk vs ls hist none, hla, hha => by
    rw [Scope.listAbsent] at hla
    rw [Scope.historyAbsent] at hha
    have hloc : ls.find? (fun e => e.1 == n) = none := by
      rw [List.find?_eq_none]
      intro x hx
      have hxe := List.all_eq_true.mp hla x hx
      simp only [Bool.not_eq_true'] at hxe
      simp [hxe]
    have hhist : n ∉ hist := by simpa using hha
    simp [Scope.hasListInHistory, hloc, hhist]

/-- Removal through an introduction keeps every chain binding that is not
exactly the named binding introduced by the given symbol. -/
theorem Scope.mem_chainVars_removeThroughIntroduction (N X : String) :
    ∀ (s : Scope) (v : IScopeVariable), v ∈ s.chainVars →
      ¬(v.name = N ∧ v.introducedBy = some X) →
      v ∈ (s.removeThroughIntroduction N X).chainVars
  | .mk vs ls hist (some par), v, hv, hk => by
    have hpred : (!(v.name == N && v.introducedBy == some X)) = true := by
      by_cases h1 : v.name = N
      · have h2 : v.introducedBy ≠ some X := fun h2 => hk ⟨h1, h2⟩
        simp [h1, h2]
      · simp [h1]
    rcases List.mem_append.mp (by simpa [Scope.chainVars] using hv) with
      hcase | hcase
    · simp only [Scope.removeThroughIntroduction, Scope.chainVars]
      exact List.mem_append.mpr (Or.inl (List.mem_filter.mpr ⟨hcase, hpred⟩))
    · have hrec :=
        Scope.mem_chainVars_removeThroughIntroduction N X par v hcase hk
      simp only [Scope.removeThroughIntroduction, Scope.chainVars]
      exact List.mem_append.mpr (Or.inr hrec)
  | .mk vs ls hist none, v, hv, hk => by
    have hpred : (!(v.name == N && v.introducedBy == some X)) = true := by
      by_cases h1 : v.name = N
      · have h2 : v.introducedBy ≠ some X := fun h2 => hk ⟨h1, h2⟩
        simp [h1, h2]
      · simp [h1]
    have hvv : v ∈ vs := by simpa [Scope.chainVars] using hv
    simp only [Scope.removeThroughIntroduction, Scope.chainVars]
    exact List.mem_filter.mpr ⟨hvv, hpred⟩

/-- C7: adding a variable `v` with `v.name = N` to any scope `S` and then
looking up `N` via `findReference` returns `v`. -/
theorem scope_addVariable_then_findReference (S : Scope) (v : IScopeVariable)
    (N : String) (h : v.name = N) :
    (S.addVariable v).findReference N = some v :=
  Scope.findReference_addVariable S v N h

/-- Witness for C7 at a concrete scope and binding. -/
theorem scope_addVariable_then_findReference_witness :
    let v : IScopeVariable :=
      { name := "title", dataType := "string", sourceField := none
        sourceName := "blueprint", introducedBy := some "sym1" }
    (Scope.addVariable v (Scope.mk [] [] [] none)).findReference "title" =
      some v :=
  scope_addVariable_then_findReference (Scope.mk [] [] [] none) _ "title" rfl

/-- C5: when ancestor `A` binds `N` to `vA` and the child scope gains a
binding `vC` for `N`, lookup in the child returns `vC` while the child's
embedded ancestor is still `A` and still resolves `N` to `vA`; the addition
produces a new child value and never mutates `A`. -/
theorem scope_shadowing (A : Scope) (cvs : List IScopeVariable)
    (ls : List (String × Scope)) (hist : List String)
    (vA vC : IScopeVariable) (N : String)
    (hA : A.findReference N = some vA) (hC : vC.name = N) :
    ((Scope.mk cvs ls hist (some A)).addVariable vC).findReference N =
        some vC ∧
    ((Scope.mk cvs ls hist (some A)).addVariable vC).ancestor = A ∧
    (((Scope.mk cvs ls hist (some A)).addVariable vC).ancestor).findReference
        N = some vA := by
  refine ⟨Scope.findReference_addVariable _ vC N hC, ?_, ?_⟩
  · simp [Scope.addVariable, Scope.ancestor, Scope.parent]
  · simpa [Scope.addVariable, Scope.ancestor, Scope.parent] using hA

/-- Witness for C5: a concrete ancestor binding shadowed by a concrete child
binding. -/
theorem scope_shadowing_witness :
    let vA : IScopeVariable :=
      { name := "title", dataType := "string", sourceField := none
        sourceName := "blueprint", introducedBy := none }
    let vC : IScopeVariable :=
      { name := "title", dataType := "number", sourceField := none
        sourceName := "loop", introducedBy := some "sym2" }
    let A : Scope := Scope.mk [vA] [] [] none
    ((Scope.mk [] [] [] (some A)).addVariable vC).findReference "title" =
        some vC ∧
    ((Scope.mk [] [] [] (some A)).addVariable vC).ancestor = A ∧
    (((Scope.mk [] [] [] (some A)).addVariable vC).ancestor).findReference
        "title" = some vA := by
  intro vA vC A
  exact scope_shadowing A [] [] [] vA vC "title" (by decide) rfl

/-- C6: with a binding for `N` introduced by `X` shadowing a deeper binding
for `N` introduced by `Y ≠ X`, `removeThroughIntroduction N X` removes only
`X`'s binding — lookup then reaches `Y`'s binding — and in general every
chain binding other than the named one introduced by `X` survives. -/
theorem scope_removeThroughIntroduction_locality
    (vX vY : IScopeVariable) (ls : List (String × Scope))
    (hist : List String) (p : Option Scope) (N X Y : String)
    (hXn : vX.name = N) (hYn : vY.name = N)
    (hXi : vX.introducedBy = some X) (hYi : vY.introducedBy = some Y)
    (hXY : X ≠ Y) :
    (Scope.mk [vY, vX] ls hist p).findReference N = some vX ∧
    ((Scope.mk [vY, vX] ls hist p).removeThroughIntroduction N X
      ).findReference N = some vY ∧
    (∀ (s : Scope) (v : IScopeVariable), v ∈ s.chainVars →
      ¬(v.name = N ∧ v.introducedBy = some X) →
      v ∈ (s.removeThroughIntroduction N X).chainVars) := by
  have hYX : Y ≠ X := fun h => hXY h.symm
  refine ⟨?_, ?_, Scope.mem_chainVars_removeThroughIntroduction N X⟩
  · cases p with
    | some par => simp [Scope.findReference, hXn]
    | none => simp [Scope.findReference, hXn]
  · cases p with
    | some par =>
      simp [Scope.removeThroughIntroduction, Scope.findReference, hXn, hYn,
        hXi, hYi, hYX]
    | none =>
      simp [Scope.removeThroughIntroduction, Scope.findReference, hXn, hYn,
        hXi, hYi, hYX]

/-- Witness for C6: concrete shadowing bindings introduced by two distinct
symbols. -/
theorem scope_removeThroughIntroduction_locality_witness :
    let vY : IScopeVariable :=
      { name := "title", dataType := "string", sourceField := none
        sourceName := "outer", introducedBy := some "symY" }
    let vX : IScopeVariable :=
      { name := "title", dataType := "number", sourceField := none
        sourceName := "inner", introducedBy := some "symX" }
    (Scope.mk [vY, vX] [] [] none).findReference "title" = some vX ∧
    ((Scope.mk [vY, vX] [] [] none).removeThroughIntroduction "title" "symX"
      ).findReference "title" = some vY := by
  intro vY vX
  have h := scope_removeThroughIntroduction_locality vX vY [] [] none
    "title" "symX" "symY" rfl rfl rfl rfl (by decide)
  exact ⟨h.1, h.2.1⟩


/-- C9: lookup operations are total functions of the scope: for an absent
plain name, `findReference` returns `null` while `containsReference`,
`hasValue`, `hasList` and `hasListInHistory` return `false` and `liftList`
returns `null`; for a possibly dotted path, `containsPath` returns `false`
and `findNestedScope` returns `null` whenever the final segment, a leading
segment, or any segment deeper in the walk is absent; and `liftList`
returns `null` exactly when no list of that name exists anywhere in the
chain, otherwise a new scope in which the list's member fields resolve as
top-level bindings. -/
theorem scope_lookup_total_on_miss (path : String) (s : Scope) :
    (Scope.varAbsent path s = true →
      s.findReference path = none ∧ s.containsReference path = false ∧
        s.hasValue path = false) ∧
    (Scope.listAbsent path s = true →
      s.findListInChain path = none ∧ s.hasList path = false ∧
        s.liftList path = none) ∧
    (Scope.listAbsent path s = true → Scope.historyAbsent path s = true →
      s.hasListInHistory path = false) ∧
    (s.liftList path = none ↔ s.hasList path = false) ∧
    (∀ s2, s.liftList path = some s2 → ∃ L, s.findListInChain path = some L ∧
      ∀ v ∈ L.vars, ∃ w, s2.findReference v.name = some w ∧
        w ∈ L.vars ∧ w.name = v.name) ∧
    (∀ (n : String) (rest : List String), splitPath path = n :: rest →
      (rest = [] → Scope.varAbsent n s = true → Scope.listAbsent n s = true →
        s.containsPath path = false ∧ s.findNestedScope path = none) ∧
      (rest ≠ [] → Scope.listAbsent n s = true →
        s.containsPath path = false ∧ s.findNestedScope path = none) ∧
      (rest ≠ [] → ∀ L, s.findListInChain n = some L →
        (Scope.containsPathSegs rest L = false →
          s.containsPath path = false) ∧
        (Scope.findNestedScopeSegs rest L = none →
          s.findNestedScope path = none))) := by
  refine ⟨fun hv => ?_, fun hl => ?_, fun hl hh => ?_,
    ?_, fun s2 hs2 => ?_, fun n rest hsplit => ?_⟩
  · have h1 := Scope.findReference_eq_none_of_varAbsent path s hv
    exact ⟨h1, by simp [Scope.containsReference, h1],
      by simp [Scope.hasValue, h1]⟩
  · have h1 := Scope.findListInChain_eq_none_of_listAbsent path s hl
    exact ⟨h1, by simp [Scope.hasList, h1], by simp [Scope.liftList, h1]⟩
  · exact Scope.hasListInHistory_eq_false path s hl hh
  · cases h : s.findListInChain path with
    | some L => simp [Scope.liftList, Scope.hasList, h]
    | none => simp [Scope.liftList, Scope.hasList, h]
  · rw [Scope.liftList] at hs2
    cases hL : s.findListInChain path with
    | none => rw [hL] at hs2; simp at hs2
    | some L =>
      rw [hL] at hs2
      simp only [Option.map_some', Option.some.injEq] at hs2
      refine ⟨L, rfl, fun v hv => ?_⟩
      have h1 : (L.vars.reverse.find? (fun x => x.name == v.name)).isSome :=
        List.find?_isSome.mpr ⟨v, List.mem_reverse.mpr hv, by simp⟩
      obtain ⟨w, hw⟩ := Option.isSome_iff_exists.mp h1
      have hw1 : w ∈ L.vars := List.mem_reverse.mp (List.mem_of_find?_eq_some hw)
      have hw2 : w.name = v.name := by simpa using List.find?_some hw
      have hfind :
          (s.vars ++ L.vars).reverse.find? (fun x => x.name == v.name) =
            some w := by
        rw [List.reverse_append, List.find?_append, hw]
        rfl
      refine ⟨w, ?_, hw1, hw2⟩
      subst hs2
      cases hp : s.parent with
      | some par =>
        simp [Scope.findReference, hp]
        exact Or.inl (Or.inl hw)
      | none =>
        simp [Scope.findReference, hp]
        exact Or.inl hw
  · refine ⟨fun hnil hv hl => ?_, fun hne hl => ?_, fun hne L hL => ?_⟩
    · subst hnil
      have h1 := Scope.findReference_eq_none_of_varAbsent n s hv
      have h2 := Scope.findListInChain_eq_none_of_listAbsent n s hl
      constructor
      · rw [Scope.containsPath, hsplit]
        simp [Scope.containsPathSegs, h1, h2]
      · rw [Scope.findNestedScope, hsplit]
        simp [Scope.findNestedScopeSegs, h2]
    · obtain ⟨r, rs, hrr⟩ : ∃ r rs, rest = r :: rs := by
        cases rest with
        | nil => exact absurd rfl hne
        | cons r rs => exact ⟨r, rs, rfl⟩
      subst hrr
      have h2 := Scope.findListInChain_eq_none_of_listAbsent n s hl
      constructor
      · rw [Scope.containsPath, hsplit]
        simp [Scope.containsPathSegs, h2]
      · rw [Scope.findNestedScope, hsplit]
        simp [Scope.findNestedScopeSegs, h2]
    · obtain ⟨r, rs, hrr⟩ : ∃ r rs, rest = r :: rs := by
        cases rest with
        | nil => exact absurd rfl hne
        | cons r rs => exact ⟨r, rs, rfl⟩
      subst hrr
      constructor
      · intro hmiss
        rw [Scope.containsPath, hsplit]
        simpa [Scope.containsPathSegs, hL] using hmiss
      · intro hmiss
        rw [Scope.findNestedScope, hsplit]
        simpa [Scope.findNestedScopeSegs, hL] using hmiss

/-- Witness for C9 at a concrete scope holding one variable and the list
`posts`: the plain name `missing` misses every name lookup; the dotted path
`missing.slug` misses on its absent leading segment and the dotted path
`posts.missing` misses on its absent final segment inside the resolved
`posts` list, while lifting the present `posts` list succeeds. -/
theorem scope_lookup_total_on_miss_witness :
    let vp : IScopeVariable :=
      { name := "slug", dataType := "string", sourceField := none
        sourceName := "blueprint", introducedBy := none }
    let posts : Scope := Scope.mk [vp] [] [] none
    let s0 : Scope :=
      Scope.mk
        [{ name := "title", dataType := "string", sourceField := none
           sourceName := "blueprint", introducedBy := none }]
        [("posts", posts)] ["posts"] none
    Scope.findReference "missing" s0 = none ∧
      Scope.liftList "missing" s0 = none ∧
      Scope.containsPath "missing.slug" s0 = false ∧
      Scope.findNestedScope "missing.slug" s0 = none ∧
      Scope.containsPath "posts.missing" s0 = false ∧
      Scope.findNestedScope "posts.missing" s0 = none := by
  intro vp posts s0
  have h1 := scope_lookup_total_on_miss "missing" s0
  have h2 := scope_lookup_total_on_miss "missing.slug" s0
  have h3 := scope_lookup_total_on_miss "posts.missing" s0
  have h2d := (h2.2.2.2.2.2 "missing" ["slug"] (by decide)).2.1
    (by decide) (by decide)
  have h3c := (h3.2.2.2.2.2 "posts" ["missing"] (by decide)).2.2
    (by decide) posts rfl
  exact ⟨(h1.1 (by decide)).1, (h1.2.1 (by decide)).2.2,
    h2d.1, h2d.2, h3c.1 (by decide), h3c.2 rfl⟩


/-- Each resolved chain link is registered exactly when the registry knows
its name, carries the registry's declaration when registered, and carries
no declaration otherwise. -/
theorem resolveChain_links (registry : List IModifier) (names : List String) :
    ∀ sm ∈ resolveChain registry names,
      (sm.hasRegisteredModifier = false ↔
        resolveModifierReference registry sm.name = none) ∧
      (sm.hasRegisteredModifier = false → sm.modifier = none) ∧
      (sm.hasRegisteredModifier = true →
        sm.modifier = resolveModifierReference registry sm.name ∧
          sm.modifier.isSome) := by
  intro sm hsm
  obtain ⟨nm, hnm, rfl⟩ := List.mem_map.mp hsm
  cases h : resolveModifierReference registry nm with
  | some m => simp [resolveModifier, h]
  | none => simp [resolveModifier, h]

/-- The left-to-right fold of a chain lands on the declared return type of
the last registered link, or the unchanged source type when no link is
registered. -/
theorem manifestTypeOfChain_eq_last_registered :
    ∀ (mods : List ISymbolModifier) (t : String),
      (∀ sm ∈ mods, sm.hasRegisteredModifier = true → sm.modifier.isSome) →
      ((mods.filter (fun sm => sm.hasRegisteredModifier)) = [] →
        manifestTypeOfChain t mods = t) ∧
      (∀ sm m,
        (mods.filter (fun sm => sm.hasRegisteredModifier)).getLast? =
          some sm →
        sm.modifier = some m →
        manifestTypeOfChain t mods = modifierReturnType m)
  | [], t, _ => by
    refine ⟨fun _ => rfl, fun sm m hlast _ => ?_⟩
    simp at hlast
  | sm0 :: rest, t, hwf => by
    have hrest := manifestTypeOfChain_eq_last_registered rest
      (chainLinkType t sm0) (fun sm h1 h2 => hwf sm (List.mem_cons_of_mem _ h1) h2)
    have hfold : manifestTypeOfChain t (sm0 :: rest) =
        manifestTypeOfChain (chainLinkType t sm0) rest := by
      simp [manifestTypeOfChain]
    cases hreg : sm0.hasRegisteredModifier with
    | false =>
      have hlink : chainLinkType t sm0 = t := by simp [chainLinkType, hreg]
      have hfilter : (sm0 :: rest).filter
          (fun sm => sm.hasRegisteredModifier) =
          rest.filter (fun sm => sm.hasRegisteredModifier) := by
        simp [List.filter_cons, hreg]
      rw [hlink] at hrest
      refine ⟨fun h0 => ?_, fun sm m hlast hm => ?_⟩
      · rw [hfold, hlink]
        exact hrest.1 (by rwa [hfilter] at h0)
      · rw [hfold, hlink]
        exact hrest.2 sm m (by rwa [hfilter] at hlast) hm
    | true =>
      obtain ⟨m0, hm0⟩ := Option.isSome_iff_exists.mp
        (hwf sm0 (List.mem_cons_self _ _) hreg)
      have hlink : chainLinkType t sm0 = modifierReturnType m0 := by
        simp [chainLinkType, hreg, hm0]
      have hfilter : (sm0 :: rest).filter
          (fun sm => sm.hasRegisteredModifier) =
          sm0 :: rest.filter (fun sm => sm.hasRegisteredModifier) := by
        simp [List.filter_cons, hreg]
      rw [hlink] at hrest
      refine ⟨fun h0 => ?_, fun sm m hlast hm => ?_⟩
      · rw [hfilter] at h0
        exact absurd h0 (List.cons_ne_nil _ _)
      · rw [hfilter] at hlast
        rw [hfold, hlink]
        cases hfr : rest.filter (fun sm => sm.hasRegisteredModifier) with
        | nil =>
          rw [hfr] at hlast
          have hsm : sm0 = sm := by simpa using hlast
          have hmm : m0 = m := by
            rw [← hsm, hm0] at hm
            exact Option.some.inj hm
          rw [← hmm]
          exact hrest.1 hfr
        | cons b bs =>
          rw [hfr] at hlast
          rw [List.getLast?_cons_cons] at hlast
          exact hrest.2 sm m (by rw [hfr]; exact hlast) hm

/-- C2 counterexample: on a value of source type `string` with the chain
`[m1, m2]` where `m1` is registered returning `number` and `m2` is
unregistered (so the last modifier of the chain is not registered), the
manifest type is `number`, not the unmodified source type `string` the
claim requires in that case. -/
theorem manifestType_claim_counterexample :
    let m1 : IModifier :=
      { name := "m1", acceptsType := ["*"], returnsType := ["number"]
        description := "", parameters := [], docLink := none
        canBeParameter := false }
    let coll := makeModifierCollection [m1] "string" ["m1", "m2"]
    coll.manifestType = "number" ∧
      coll.manifestType ≠ "string" ∧
      (coll.modifiers.getLast?).map
        (fun sm => sm.hasRegisteredModifier) = some false := by
  refine ⟨rfl, by decide, rfl⟩

/-- C2 (amended): modifiers compose strictly left-to-right, each registered
link's declared return type becoming the next link's assumed input type; an
unregistered link leaves `hasRegisteredModifier = false` and the type
unchanged at that link without breaking the chain; hence `manifestType` is
the declared return type of the last registered modifier in the chain, and
the unmodified source type when no link is registered. -/
theorem manifestType_chain_spec (registry : List IModifier) (t : String)
    (names : List String) :
    (∀ sm ∈ (makeModifierCollection registry t names).modifiers,
      (sm.hasRegisteredModifier = false ↔
        resolveModifierReference registry sm.name = none) ∧
      (sm.hasRegisteredModifier = false → sm.modifier = none)) ∧
    (((resolveChain registry names).filter
        (fun sm => sm.hasRegisteredModifier)) = [] →
      (makeModifierCollection registry t names).manifestType = t) ∧
    (∀ sm m,
      ((resolveChain registry names).filter
        (fun sm => sm.hasRegisteredModifier)).getLast? = some sm →
      sm.modifier = some m →
      (makeModifierCollection registry t names).manifestType =
        modifierReturnType m) := by
  have hwf : ∀ sm ∈ resolveChain registry names,
      sm.hasRegisteredModifier = true → sm.modifier.isSome :=
    fun sm hsm hreg => ((resolveChain_links registry names sm hsm).2.2 hreg).2
  have hchar := manifestTypeOfChain_eq_last_registered
    (resolveChain registry names) t hwf
  refine ⟨fun sm hsm => ?_, hchar.1, hchar.2⟩
  have h := resolveChain_links registry names sm hsm
  exact ⟨h.1, h.2.1⟩

/-- Witness for C2 (amended) on the claim's example chains: with `m1`
returning `number` and `m2` accepting `number`/returning `string`, the
chain `[m1, m2]` manifests `string`; with `m2` unregistered the chain
manifests `number` and the `m2` link has `hasRegisteredModifier = false`. -/
theorem manifestType_chain_spec_witness :
    let m1 : IModifier :=
      { name := "m1", acceptsType := ["*"], returnsType := ["number"]
        description := "", parameters := [], docLink := none
        canBeParameter := false }
    let m2 : IModifier :=
      { name := "m2", acceptsType := ["number"], returnsType := ["string"]
        description := "", parameters := [], docLink := none
        canBeParameter := false }
    (makeModifierCollection [m1, m2] "date" ["m1", "m2"]).manifestType =
        "string" ∧
    (makeModifierCollection [m1] "date" ["m1", "m2"]).manifestType =
        "number" ∧
    ((makeModifierCollection [m1] "date" ["m1", "m2"]).modifiers.getLast?
      ).map (fun sm => sm.hasRegisteredModifier) = some false := by
  intro m1 m2
  refine ⟨?_, ?_, rfl⟩
  · exact (manifestType_chain_spec [m1, m2] "date" ["m1", "m2"]).2.2
      { content := "m2", source := "shorthand", name := "m2"
        startOffset := 0, endOffset := 0, line := 0
        hasRegisteredModifier := true, modifier := some m2 }
      m2 (by decide) rfl
  · exact (manifestType_chain_spec [m1] "date" ["m1", "m2"]).2.2
      { content := "m1", source := "shorthand", name := "m1"
        startOffset := 0, endOffset := 0, line := 0
        hasRegisteredModifier := true, modifier := some m1 }
      m1 (by decide) rfl


/-- C10: hover dispatch returns the first non-null handler result (it equals
`findSome?` of the ordered result list), and completion dispatch
concatenates, in handler order, the item lists of results up to the first
exclusive one, appending the first exclusive result's items and skipping
every later handler. -/
theorem dispatch_pipeline_spec :
    (∀ results : List (Option Hover),
      dispatchHover results = results.findSome? id) ∧
    (∀ results : List ICompletionResult,
      dispatchCompletion results =
        ((results.takeWhile (fun r => !r.isExclusiveResult)).map
            ICompletionResult.items).flatten ++
          (((results.find? (fun r => r.isExclusiveResult)).map
              ICompletionResult.items).getD [])) := by
  constructor
  · intro results
    induction results with
    | nil => rfl
    | cons r rest ih =>
      cases r with
      | some h => simp [dispatchHover, List.findSome?]
      | none => simpa [dispatchHover, List.findSome?] using ih
  · intro results
    induction results with
    | nil => rfl
    | cons r rest ih =>
      cases hex : r.isExclusiveResult with
      | true =>
        simp [dispatchCompletion, hex, List.takeWhile_cons, List.find?_cons]
      | false =>
        simp [dispatchCompletion, hex, List.takeWhile_cons, List.find?_cons,
          ih, List.append_assoc]


/-- A successful pop splits the stack around the popped opener: the entries
above it are kept in order and the popped entry carried the searched tag
name. -/
theorem popMatch_eq_some (nm : String) :
    ∀ (l : List (Nat × String)) (j : Nat) (l2 : List (Nat × String)),
      popMatch l nm = some (j, l2) →
      ∃ pre post, l = pre ++ (j, nm) :: post ∧ l2 = pre ++ post
  | [], j, l2, h => by simp [popMatch] at h
  | e :: rest, j, l2, h => by
    by_cases he : e.2 = nm
    · rw [popMatch, if_pos he] at h
      have h1 : e.1 = j ∧ rest = l2 := by
        constructor <;> [exact congrArg Prod.fst (Option.some.inj h);
          exact congrArg Prod.snd (Option.some.inj h)]
      refine ⟨[], rest, ?_, by simp [h1.2]⟩
      have he2 : e = (j, nm) := by
        cases e
        simp only [Prod.mk.injEq]
        exact ⟨h1.1, he⟩
      simp [he2]
    · rw [popMatch, if_neg he] at h
      obtain ⟨r, hr, hmap⟩ := Option.map_eq_some'.mp h
      have hj : r.1 = j := congrArg Prod.fst hmap
      have hl2 : e :: r.2 = l2 := congrArg Prod.snd hmap
      obtain ⟨pre, post, hrest, hr2⟩ :=
        popMatch_eq_some nm rest r.1 r.2 hr
    
      refine ⟨e :: pre, post, ?_, ?_⟩
      · rw [hrest, hj]
        simp
      · rw [← hl2, hr2]
        simp

/-- The pairing invariant is monotone in the token-count bound. -/
theorem pairInv_succ (tokens : List RawToken) (n : Nat) (st : PairState)
    (h : PairInv tokens n st) : PairInv tokens (n + 1) st where
  stack_lt := fun e he => Nat.lt_succ_of_lt (h.stack_lt e he)
  stack_opener := h.stack_opener
  stack_nodup := h.stack_nodup
  match_lt := fun p hp =>
    ⟨(h.match_lt p hp).1, Nat.lt_succ_of_lt (h.match_lt p hp).2⟩
  match_opener := h.match_opener
  match_closer := h.match_closer
  match_closers_nodup := h.match_closers_nodup
  match_openers_nodup := h.match_openers_nodup
  disj := h.disj

/-- `find?` returns the element when it satisfies the predicate, belongs to
the list, and is the only member doing so. -/
theorem find_eq_some_of_unique {α : Type} (p : α → Bool) :
    ∀ (l : List α) (a : α), a ∈ l → p a = true →
      (∀ b ∈ l, p b = true → b = a) → l.find? p = some a
  | [], a, ha, _, _ => absurd ha (List.not_mem_nil a)
  | b :: rest, a, ha, hpa, huniq => by
    cases hpb : p b with
    | true =>
      rw [List.find?_cons_of_pos _ hpb]
      exact congrArg some (huniq b (List.mem_cons_self _ _) hpb)
    | false =>
      rw [List.find?_cons_of_neg _ (by simp [hpb])]
      have ha2 : a ∈ rest := by
        rcases List.mem_cons.mp ha with h | h
        · subst h
          rw [hpa] at hpb
          cases hpb
        · exact h
      exact find_eq_some_of_unique p rest a ha2 hpa
        (fun c hc hpc => huniq c (List.mem_cons_of_mem _ hc) hpc)


/-- One pairing step preserves the pairing invariant. -/
theorem pairStep_inv (tokens : List RawToken) (n : Nat) (st : PairState)
    (t : RawToken) (hInv : PairInv tokens n st) (ht : tokens[n]? = some t) :
    PairInv tokens (n + 1) (pairStep st n t) := by
  by_cases hc : t.isClosing = true
  · unfold pairStep
    rw [if_pos hc]
    cases hpop : popMatch st.stack t.name with
    | none => exact pairInv_succ tokens n st hInv
    | some r =>
      obtain ⟨j, stack2⟩ := r
      obtain ⟨pre, post, hstack, hstack2⟩ :=
        popMatch_eq_some t.name st.stack j stack2 hpop
      have hjmem : (j, t.name) ∈ st.stack := by
        rw [hstack]
        exact List.mem_append_right _ (List.mem_cons_self _ _)
      have hjlt : j < n := hInv.stack_lt _ hjmem
      obtain ⟨t2, ht2, ht2c, ht2n⟩ := hInv.stack_opener _ hjmem
      have hsub : List.Sublist stack2 st.stack := by
        rw [hstack, hstack2]
        exact (List.sublist_cons_self (j, t.name) post).append_left pre
      have hjnotin : j ∉ stack2.map Prod.fst := by
        have hnd := hInv.stack_nodup
        rw [hstack, List.map_append, List.map_cons, List.nodup_append] at hnd
        intro hmem
        rw [hstack2, List.map_append] at hmem
        rcases List.mem_append.mp hmem with hm | hm
        · exact hnd.2.2 hm (List.mem_cons_self _ _)
        · exact (List.nodup_cons.mp hnd.2.1).1 hm
      have hjnotmatched : j ∉ st.matched.map Prod.fst := by
        intro hmem
        obtain ⟨p, hp, hpj⟩ := List.mem_map.mp hmem
        exact hInv.disj _ hjmem p hp hpj.symm
      refine { stack_lt := ?_, stack_opener := ?_, stack_nodup := ?_,
               match_lt := ?_, match_opener := ?_, match_closer := ?_,
               match_closers_nodup := ?_, match_openers_nodup := ?_,
               disj := ?_ }
      · exact fun e he => Nat.lt_succ_of_lt (hInv.stack_lt e (hsub.subset he))
      · exact fun e he => hInv.stack_opener e (hsub.subset he)
      · exact hInv.stack_nodup.sublist (hsub.map Prod.fst)
      · intro p hp
        rcases List.mem_cons.mp hp with h | h
        · subst h
          exact ⟨hjlt, Nat.lt_succ_self n⟩
        · exact ⟨(hInv.match_lt p h).1,
            Nat.lt_succ_of_lt (hInv.match_lt p h).2⟩
      · intro p hp
        rcases List.mem_cons.mp hp with h | h
        · subst h
          exact ⟨t2, ht2, ht2c⟩
        · exact hInv.match_opener p h
      · intro p hp
        rcases List.mem_cons.mp hp with h | h
        · subst h
          exact ⟨t, ht, hc⟩
        · exact hInv.match_closer p h
      · rw [List.map_cons]
        refine List.nodup_cons.mpr ⟨?_, hInv.match_closers_nodup⟩
        intro hmem
        obtain ⟨p, hp, hpn⟩ := List.mem_map.mp hmem
        have := (hInv.match_lt p hp).2
        omega
      · rw [List.map_cons]
        exact List.nodup_cons.mpr ⟨hjnotmatched, hInv.match_openers_nodup⟩
      · intro e he p hp
        rcases List.mem_cons.mp hp with h | h
        · subst h
          intro heq
          have heq2 : e.1 = j := heq
          exact hjnotin (heq2 ▸ List.mem_map_of_mem Prod.fst he)
        · exact hInv.disj e (hsub.subset he) p h
  · unfold pairStep
    rw [if_neg hc]
    have hcf : t.isClosing = false := by simpa using hc
    refine { stack_lt := ?_, stack_opener := ?_, stack_nodup := ?_,
             match_lt := ?_, match_opener := ?_, match_closer := ?_,
             match_closers_nodup := ?_, match_openers_nodup := ?_,
             disj := ?_ }
    · intro e he
      rcases List.mem_cons.mp he with h | h
      · subst h
        exact Nat.lt_succ_self n
      · exact Nat.lt_succ_of_lt (hInv.stack_lt e h)
    · intro e he
      rcases List.mem_cons.mp he with h | h
      · subst h
        exact ⟨t, ht, hcf, rfl⟩
      · exact hInv.stack_opener e h
    · rw [List.map_cons]
      refine List.nodup_cons.mpr ⟨?_, hInv.stack_nodup⟩
      intro hmem
      obtain ⟨e, he, hen⟩ := List.mem_map.mp hmem
      have := hInv.stack_lt e he
      omega
    · exact fun p hp => ⟨(hInv.match_lt p hp).1,
        Nat.lt_succ_of_lt (hInv.match_lt p hp).2⟩
    · exact hInv.match_opener
    · exact hInv.match_closer
    · exact hInv.match_closers_nodup
    · exact hInv.match_openers_nodup
    · intro e he p hp
      rcases List.mem_cons.mp he with h | h
      · subst h
        have h1 := (hInv.match_lt p hp).1
        have h2 := (hInv.match_lt p hp).2
        show n ≠ p.1
        omega
      · exact hInv.disj e h p hp


/-- Running the pairing pass over a suffix of the document preserves the
invariant through to the end of the suffix. -/
theorem pairRun_inv (tokens : List RawToken) :
    ∀ (ts : List RawToken) (n : Nat) (st : PairState),
      PairInv tokens n st →
      (∀ k t, ts[k]? = some t → tokens[n + k]? = some t) →
      PairInv tokens (n + ts.length) (pairRun ts n st)
  | [], n, st, hInv, _ => by simpa [pairRun] using hInv
  | t :: ts, n, st, hInv, hagree => by
    have ht : tokens[n]? = some t := by
      simpa using hagree 0 t (by simp)
    have h1 := pairStep_inv tokens n st t hInv ht
    have hagree2 : ∀ k t2, ts[k]? = some t2 →
        tokens[(n + 1) + k]? = some t2 := by
      intro k t2 hk
      have h := hagree (k + 1) t2 (by simpa using hk)
      rwa [show n + (k + 1) = n + 1 + k by omega] at h
    have h2 := pairRun_inv tokens ts (n + 1) (pairStep st n t) h1 hagree2
    rw [pairRun]
    rwa [show n + (t :: ts).length = n + 1 + ts.length by simp; omega]

/-- The completed pairing pass satisfies the invariant at the full document
length, with the produced match list. -/
theorem pairTokens_inv (tokens : List RawToken) :
    PairInv tokens tokens.length
      (pairRun tokens 0 { stack := [], matched := [] }) := by
  have hinit : PairInv tokens 0 { stack := [], matched := [] } := by
    refine { stack_lt := ?_, stack_opener := ?_, stack_nodup := ?_,
             match_lt := ?_, match_opener := ?_, match_closer := ?_,
             match_closers_nodup := ?_, match_openers_nodup := ?_,
             disj := ?_ } <;> simp
  have h := pairRun_inv tokens tokens 0 { stack := [], matched := [] }
    hinit (fun k t hk => by simpa using hk)
  simpa using h

/-- Membership in `buildSymbols` decomposes through the token list. -/
theorem buildSymbols_getElem (tokens : List RawToken) (i : Nat) :
    (buildSymbols tokens)[i]? =
      (tokens[i]?).map (mkSymbol (pairTokens tokens) i) := by
  rw [buildSymbols, List.getElem?_map, List.getElem?_enum]
  cases tokens[i]? <;> rfl


/-- C8 (amended): every symbol produced from well-formed tokens satisfies
`startOffset ≤ endOffset` and `startLine ≤ endLine`; ownership back-references
are populated in at most one direction — never both — with `belongsTo` only
on closing symbols and `isClosedBy` only on opening symbols; and whenever a
closing symbol's `belongsTo` is populated it references an opening symbol
whose `isClosedBy` points back to it. -/
theorem pairing_invariants (tokens : List RawToken)
    (hpos : ∀ t ∈ tokens,
      t.startOffset ≤ t.endOffset ∧ t.startLine ≤ t.endLine) :
    ∀ (j : Nat) (s : ISymbol), (buildSymbols tokens)[j]? = some s →
      (s.startOffset ≤ s.endOffset ∧ s.startLine ≤ s.endLine) ∧
      (¬(s.belongsTo ≠ none ∧ s.isClosedBy ≠ none)) ∧
      (s.isClosingTag = false → s.belongsTo = none) ∧
      (s.isClosingTag = true → s.isClosedBy = none) ∧
      (∀ i, s.belongsTo = some i →
        ∃ s2, (buildSymbols tokens)[i]? = some s2 ∧
          s2.isClosedBy = some j ∧ s2.isClosingTag = false) := by
  intro j s hs
  rw [buildSymbols_getElem] at hs
  obtain ⟨t, htj, hmk⟩ := Option.map_eq_some'.mp hs
  subst hmk
  have htmem : t ∈ tokens := List.getElem?_mem htj
  have hInv := pairTokens_inv tokens
  refine ⟨⟨(hpos t htmem).1, (hpos t htmem).2⟩, ?_, ?_, ?_, ?_⟩
  · cases hc : t.isClosing with
    | false =>
      intro hcontra
      exact hcontra.1 (by simp [mkSymbol, hc])
    | true =>
      intro hcontra
      exact hcontra.2 (by simp [mkSymbol, hc])
  · intro hcf
    have hcf2 : t.isClosing = false := hcf
    simp [mkSymbol, hcf2]
  · intro hct
    have hct2 : t.isClosing = true := hct
    simp [mkSymbol, hct2]
  · intro i hbel
    have hc : t.isClosing = true := by
      by_contra hcf
      have hcf2 : t.isClosing = false := by simpa using hcf
      rw [show (mkSymbol (pairTokens tokens) j t).belongsTo = none by
        simp [mkSymbol, hcf2]] at hbel
      cases hbel
    have hbel2 : ((pairTokens tokens).find?
        (fun p => p.2 == j)).map (fun p => p.1) = some i := by
      simpa [mkSymbol, hc] using hbel
    obtain ⟨p, hfp, hp1⟩ := Option.map_eq_some'.mp hbel2
    have hpmem : p ∈ pairTokens tokens := List.mem_of_find?_eq_some hfp
    have hp2 : p.2 = j := by simpa using List.find?_some hfp
    have hpeq : p = (i, j) := by
      cases p
      simp only [Prod.mk.injEq]
      exact ⟨hp1, hp2⟩
    have hpmem2 : p ∈
        (pairRun tokens 0 { stack := [], matched := [] }).matched := hpmem
    have hopener := hInv.match_opener p hpmem2
    rw [hpeq] at hopener
    obtain ⟨t2, ht2, ht2c⟩ := hopener
    have hfind : (pairTokens tokens).find? (fun q => q.1 == i) =
        some (i, j) := by
      apply find_eq_some_of_unique
      · rw [← hpeq]
        exact hpmem
      · simp
      · intro b hb hpb
        have hb1 : b.1 = i := by simpa using hpb
        have hmemij :
            (i, j) ∈ (pairRun tokens 0 { stack := [], matched := [] }).matched := by
          rw [← hpeq]
          exact hpmem2
        exact List.inj_on_of_nodup_map hInv.match_openers_nodup hb hmemij
          (by simpa using hb1)
    refine ⟨mkSymbol (pairTokens tokens) i t2, ?_, ?_, ?_⟩
    · rw [buildSymbols_getElem, ht2]
      rfl
    · simp [mkSymbol, ht2c, hfind]
    · simp [mkSymbol, ht2c]


/-- C8 counterexample: an unmatched lone closer is kept in the produced
sequence with `belongsTo = null` (its `belongsTo` references no symbol at
all), and an unmatched lone opener likewise has `isClosedBy = null`; for
both, zero — not exactly one — ownership directions are populated. -/
theorem pairing_claim_counterexample :
    let closeTok : RawToken :=
      { name := "a", isClosing := true, startLine := 0, endLine := 0
        startOffset := 0, endOffset := 2 }
    let openTok : RawToken :=
      { name := "a", isClosing := false, startLine := 0, endLine := 0
        startOffset := 0, endOffset := 2 }
    (buildSymbols [closeTok])[0]? =
      some { id := "0", name := "a", isClosingTag := true, startLine := 0
             endLine := 0, startOffset := 0, endOffset := 2
             belongsTo := none, isClosedBy := none } ∧
    (buildSymbols [openTok])[0]? =
      some { id := "0", name := "a", isClosingTag := false, startLine := 0
             endLine := 0, startOffset := 0, endOffset := 2
             belongsTo := none, isClosedBy := none } := by
  exact ⟨by decide, by decide⟩

/-- Witness for C8 (amended) on the nested construct
open A, open B, close B, close A: B's closer belongs to B's own opener
(index 1, not A's index 0), A's closer belongs to A's opener, and B's
opener is closed by B's closer — mutual consistency at B's own pair. -/
theorem pairing_invariants_witness :
    let exTokens : List RawToken :=
      [{ name := "A", isClosing := false, startLine := 0, endLine := 0,
         startOffset := 0, endOffset := 1 },
       { name := "B", isClosing := false, startLine := 1, endLine := 1,
         startOffset := 0, endOffset := 1 },
       { name := "B", isClosing := true, startLine := 2, endLine := 2,
         startOffset := 0, endOffset := 1 },
       { name := "A", isClosing := true, startLine := 3, endLine := 3,
         startOffset := 0, endOffset := 1 }]
    (((buildSymbols exTokens)[2]?).map ISymbol.belongsTo = some (some 1)) ∧
    (((buildSymbols exTokens)[3]?).map ISymbol.belongsTo = some (some 0)) ∧
    (∃ s2, (buildSymbols exTokens)[1]? = some s2 ∧ s2.isClosedBy = some 2 ∧
      s2.isClosingTag = false) := by
  intro exTokens
  refine ⟨by decide, by decide, ?_⟩
  have h := pairing_invariants exTokens (by decide) 2
    { id := "2", name := "B", isClosingTag := true, startLine := 2,
      endLine := 2, startOffset := 0, endOffset := 1,
      belongsTo := some 1, isClosedBy := none } (by decide)
  exact h.2.2.2.2 1 (by decide)

end AntlersLS
